import Mathlib

/-!
Verification of the extension-request processing pipeline
(`process_extensions.py`).

The Python source is shallowly embedded below.  Text is modelled as Lean
strings (lists of characters), `datetime` values as calendar dates
(`Date`, a year/month/day triple) or — for the weekday arithmetic of
`get_next_sunday` — as proleptic Gregorian day ordinals
(`datetime.toordinal`, day 1 = January 1 of year 1, a Monday).
Dictionaries keyed by strings are modelled as association lists that
preserve insertion order, matching Python dict semantics.  File writing
is out of scope: the output functions are embedded in their preview
(`dry_run`) semantics, which perform every computation except the final
write.
-/

namespace ProcessExtensions

/-- The characters stripped by the Python `str.strip()` method: the
code points for which `str.isspace()` holds (CPython 3.11 Unicode
data): `09`-`0D`, `1C`-`20`, `85`, `A0`, `1680`, `2000`-`200A`,
`2028`, `2029`, `202F`, `205F` and `3000`. -/
def isPySpace (c : Char) : Bool :=
  (9 ≤ c.toNat && c.toNat ≤ 13) || (28 ≤ c.toNat && c.toNat ≤ 32) ||
  c.toNat = 133 || c.toNat = 160 || c.toNat = 5760 ||
  (8192 ≤ c.toNat && c.toNat ≤ 8202) || c.toNat = 8232 ||
  c.toNat = 8233 || c.toNat = 8239 || c.toNat = 8287 || c.toNat = 12288

/-- Python `str.strip()` on a character list: drop leading and trailing
whitespace. -/
def pyStrip (cs : List Char) : List Char :=
  ((cs.dropWhile isPySpace).reverse.dropWhile isPySpace).reverse

/-- Python `str.strip()` on strings. -/
def pyTrim (s : String) : String :=
  ⟨pyStrip s.data⟩

/-- A single-quote character, used when building error messages. -/
def sq : String :=
  String.singleton (Char.ofNat 39)

/-- Value of a decimal digit character. -/
def digitVal (c : Char) : Nat :=
  c.toNat - 48

/-- The start code points of the runs of ten consecutive decimal
digits that form the non-ASCII part of the Unicode `Nd` category
(CPython 3.11 Unicode data).  The regex class `\d` used by `strptime`
matches the ASCII digits together with exactly these runs, and each
digit in a run has its offset as decimal value. -/
def ndNonAsciiStarts : List Nat :=
  [1632, 1776, 1984, 2406, 2534, 2662, 2790, 2918, 3046, 3174, 3302,
   3430, 3558, 3664, 3792, 3872, 4160, 4240, 6112, 6160, 6470, 6608,
   6784, 6800, 6992, 7088, 7232, 7248, 42528, 43216, 43264, 43472,
   43504, 43600, 44016, 65296, 66720, 68912, 69734, 69872, 69942,
   70096, 70384, 70736, 70864, 71248, 71360, 71472, 71904, 72016,
   72784, 73040, 73120, 92768, 92864, 93008, 120782, 120792, 120802,
   120812, 120822, 123200, 123632, 125264, 130032]

/-- The regex class `\d` of `strptime`: a Unicode decimal digit
(category `Nd`). -/
def isUniDigit (c : Char) : Bool :=
  c.isDigit || ndNonAsciiStarts.any (fun v => v ≤ c.toNat && c.toNat < v + 10)

/-- The decimal value of a Unicode digit, as computed by `int()` on
the matched group. -/
def uniDigitVal (c : Char) : Nat :=
  if c.isDigit then digitVal c
  else
    match ndNonAsciiStarts.find? (fun v => v ≤ c.toNat && c.toNat < v + 10)
      with
    | some v => c.toNat - v
    | none => 0

/-- A calendar date, the embedding of a `datetime` value (the pipeline
never uses the time-of-day component). -/
structure Date where
  year : Nat
  month : Nat
  day : Nat
deriving DecidableEq

/-- Gregorian leap-year test, as in `datetime`. -/
def isLeap (y : Nat) : Bool :=
  (y % 4 = 0 && y % 100 ≠ 0) || y % 400 = 0

/-- Number of days in a month, as in `datetime`. -/
def daysInMonth (y m : Nat) : Nat :=
  if m = 2 then (if isLeap y then 29 else 28)
  else if m = 4 || m = 6 || m = 9 || m = 11 then 30
  else 31

/-- The `datetime` constructor validity check (`MINYEAR = 1`,
`MAXYEAR = 9999`). -/
def validDate (dt : Date) : Prop :=
  1 ≤ dt.year ∧ dt.year ≤ 9999 ∧ 1 ≤ dt.month ∧ dt.month ≤ 12 ∧
    1 ≤ dt.day ∧ dt.day ≤ daysInMonth dt.year dt.month

instance (dt : Date) : Decidable (validDate dt) := by
  unfold validDate; infer_instance

/-- The `%m` directive of `strptime`: the regular expression
`1[0-2]|0[1-9]|[1-9]`, alternatives tried left to right. -/
def parseMonth : List Char → Option (Nat × List Char)
  | '1' :: c :: rest =>
      if '0' ≤ c ∧ c ≤ '2' then some (10 + digitVal c, rest)
      else some (1, c :: rest)
  | '0' :: c :: rest =>
      if '1' ≤ c ∧ c ≤ '9' then some (digitVal c, rest)
      else none
  | c :: rest =>
      if '1' ≤ c ∧ c ≤ '9' then some (digitVal c, rest) else none
  | [] => none

/-- The `%d` directive of `strptime`: the regular expression
`3[01]|[12]\d|0[1-9]|[1-9]`, alternatives tried left to right.  The
bracketed classes are ASCII, while `\d` is a Unicode decimal digit. -/
def parseDay : List Char → Option (Nat × List Char)
  | '3' :: c :: rest =>
      if c = '0' ∨ c = '1' then some (30 + digitVal c, rest)
      else some (3, c :: rest)
  | '1' :: c :: rest =>
      if isUniDigit c then some (10 + uniDigitVal c, rest)
      else some (1, c :: rest)
  | '2' :: c :: rest =>
      if isUniDigit c then some (20 + uniDigitVal c, rest)
      else some (2, c :: rest)
  | '0' :: c :: rest =>
      if '1' ≤ c ∧ c ≤ '9' then some (digitVal c, rest)
      else none
  | c :: rest =>
      if '1' ≤ c ∧ c ≤ '9' then some (digitVal c, rest) else none
  | [] => none

/-- The `%Y` directive of `strptime`: `\d\d\d\d`, four Unicode decimal
digits. -/
def parseYear4 : List Char → Option (Nat × List Char)
  | a :: b :: c :: d :: rest =>
      if isUniDigit a ∧ isUniDigit b ∧ isUniDigit c ∧ isUniDigit d then
        some (((uniDigitVal a * 10 + uniDigitVal b) * 10 + uniDigitVal c)
          * 10 + uniDigitVal d, rest)
      else none
  | _ => none

/-- Matching the full `strptime` format `%m/%d/%Y` against a character
list, requiring that no unconverted data remain. -/
def matchMDY (cs : List Char) : Option (Nat × Nat × Nat) :=
  match parseMonth cs with
  | none => none
  | some (m, r1) =>
    match r1 with
    | '/' :: r2 =>
      match parseDay r2 with
      | none => none
      | some (d, r3) =>
        match r3 with
        | '/' :: r4 =>
          match parseYear4 r4 with
          | none => none
          | some (y, r5) => if r5 = [] then some (m, d, y) else none
        | _ => none
    | _ => none

/-- `parse_date`: strip the input, run `strptime` with format
`%m/%d/%Y`, and return `none` when matching or the `datetime`
constructor fails (`ValueError` is caught and mapped to `None`). -/
def parse_date (s : String) : Option Date :=
  match matchMDY (pyStrip s.data) with
  | some (m, d, y) =>
      if validDate ⟨y, m, d⟩ then some ⟨y, m, d⟩ else none
  | none => none

/-- Two-digit zero-padded decimal rendering (`%m`, `%d` of
`strftime`). -/
def pad2 (n : Nat) : List Char :=
  [Nat.digitChar (n / 10), Nat.digitChar (n % 10)]

/-- Four-digit zero-padded decimal rendering of a number below
10000. -/
def pad4 (n : Nat) : List Char :=
  [Nat.digitChar (n / 1000), Nat.digitChar (n / 100 % 10),
   Nat.digitChar (n / 10 % 10), Nat.digitChar (n % 10)]

/-- The `%Y` directive of the glibc `strftime` the source delegates
to: the year printed as an ordinary decimal number with no zero
padding (so one to four digits over the `datetime` year range 1 to
9999; `datetime(5, 1, 2)` formats as `01/02/5`). -/
def yearChars (y : Nat) : List Char :=
  if y < 10 then [Nat.digitChar y]
  else if y < 100 then [Nat.digitChar (y / 10), Nat.digitChar (y % 10)]
  else if y < 1000 then
    [Nat.digitChar (y / 100), Nat.digitChar (y / 10 % 10),
     Nat.digitChar (y % 10)]
  else pad4 y

/-- `format_date`: render a date back through
`strftime("%m/%d/%Y")`. -/
def format_date (dt : Date) : String :=
  ⟨pad2 dt.month ++ '/' :: pad2 dt.day ++ '/' :: yearChars dt.year⟩

/-- Modelled from the spec: the canonically zero-padded `MM/DD/YYYY`
rendering the round-trip claim quantifies over (two-digit month,
two-digit day, four-digit year). -/
def paddedMDY (dt : Date) : String :=
  ⟨pad2 dt.month ++ '/' :: pad2 dt.day ++ '/' :: pad4 dt.year⟩

theorem digitChar_isDigit {k : Nat} (h : k ≤ 9) :
    (Nat.digitChar k).isDigit = true := by
  interval_cases k <;> decide

theorem digitVal_digitChar {k : Nat} (h : k ≤ 9) :
    digitVal (Nat.digitChar k) = k := by
  interval_cases k <;> decide

theorem digitChar_not_space {k : Nat} (h : k ≤ 9) :
    isPySpace (Nat.digitChar k) = false := by
  interval_cases k <;> decide

theorem digitChar_isUniDigit {k : Nat} (h : k ≤ 9) :
    isUniDigit (Nat.digitChar k) = true := by
  interval_cases k <;> decide

theorem uniDigitVal_digitChar {k : Nat} (h : k ≤ 9) :
    uniDigitVal (Nat.digitChar k) = k := by
  interval_cases k <;> decide

theorem dropWhile_no {p : Char → Bool} {cs : List Char}
    (h : ∀ c ∈ cs, p c = false) : List.dropWhile p cs = cs := by
  cases cs with
  | nil => rfl
  | cons a l => simp [List.dropWhile_cons, h a (by simp)]

theorem pyStrip_eq_self {cs : List Char}
    (h : ∀ c ∈ cs, isPySpace c = false) : pyStrip cs = cs := by
  unfold pyStrip
  rw [dropWhile_no h, dropWhile_no, List.reverse_reverse]
  intro c hc
  exact h c (List.mem_reverse.mp hc)

/-! ### Parsing the rendered fields back -/

theorem parseMonth_pad2 {m : Nat} (h1 : 1 ≤ m) (h2 : m ≤ 12)
    (rest : List Char) : parseMonth (pad2 m ++ rest) = some (m, rest) := by
  interval_cases m <;> rfl

theorem parseDay_pad2 {d : Nat} (h1 : 1 ≤ d) (h2 : d ≤ 31)
    (rest : List Char) : parseDay (pad2 d ++ rest) = some (d, rest) := by
  interval_cases d <;> rfl

theorem parseYear4_pad4 {y : Nat} (h : y ≤ 9999) :
    parseYear4 (pad4 y) = some (y, []) := by
  have h1 : y / 1000 ≤ 9 := by omega
  have h2 : y / 100 % 10 ≤ 9 := by omega
  have h3 : y / 10 % 10 ≤ 9 := by omega
  have h4 : y % 10 ≤ 9 := by omega
  simp [pad4, parseYear4, digitChar_isUniDigit h1, digitChar_isUniDigit h2,
    digitChar_isUniDigit h3, digitChar_isUniDigit h4,
    uniDigitVal_digitChar h1, uniDigitVal_digitChar h2,
    uniDigitVal_digitChar h3, uniDigitVal_digitChar h4]
  omega

theorem daysInMonth_le_31 (y m : Nat) : daysInMonth y m ≤ 31 := by
  unfold daysInMonth
  split_ifs <;> simp

theorem matchMDY_padded (dt : Date) (h : validDate dt) :
    matchMDY (paddedMDY dt).data = some (dt.month, dt.day, dt.year) := by
  obtain ⟨h1, h2, h3, h4, h5, h6⟩ := h
  have hd31 : dt.day ≤ 31 := le_trans h6 (daysInMonth_le_31 _ _)
  show matchMDY (pad2 dt.month ++ '/' :: pad2 dt.day ++ '/' :: pad4 dt.year)
      = some (dt.month, dt.day, dt.year)
  simp only [matchMDY, List.append_assoc, List.cons_append,
    parseMonth_pad2 h3 h4, parseDay_pad2 h5 hd31, parseYear4_pad4 h2]
  rfl

theorem paddedMDY_no_space (dt : Date) (h : validDate dt) :
    ∀ c ∈ (paddedMDY dt).data, isPySpace c = false := by
  obtain ⟨h1, h2, h3, h4, h5, h6⟩ := h
  have hd31 : dt.day ≤ 31 := le_trans h6 (daysInMonth_le_31 _ _)
  intro c hc
  have hc2 : c ∈ [Nat.digitChar (dt.month / 10), Nat.digitChar (dt.month % 10),
      Char.ofNat 47, Nat.digitChar (dt.day / 10), Nat.digitChar (dt.day % 10),
      Char.ofNat 47, Nat.digitChar (dt.year / 1000),
      Nat.digitChar (dt.year / 100 % 10), Nat.digitChar (dt.year / 10 % 10),
      Nat.digitChar (dt.year % 10)] := hc
  simp only [List.mem_cons, List.not_mem_nil, or_false] at hc2
  rcases hc2 with h | h | h | h | h | h | h | h | h | h <;> subst h <;>
    first
    | decide
    | exact digitChar_not_space (by omega)

/-! ### Claim theorems for the date utilities -/

theorem yearChars_eq_pad4 {y : Nat} (hy : 1000 ≤ y) :
    yearChars y = pad4 y := by
  unfold yearChars
  rw [if_neg (by omega), if_neg (by omega), if_neg (by omega)]

/-- Counterexample to C4 as stated: parsing the canonically padded
string `01/02/0005` succeeds, but re-formatting the result renders the
year without leading zeros, so the round-trip fails below year
1000. -/
theorem format_date_drops_leading_zeros :
    parse_date "01/02/0005" = some ⟨5, 1, 2⟩ ∧
    format_date ⟨5, 1, 2⟩ = "01/02/5" ∧
    Option.map format_date (parse_date "01/02/0005") = some "01/02/5" ∧
    ("01/02/5" : String) ≠ "01/02/0005" := by
  decide

/-- C4 (amended): for every valid calendar date, parsing its
canonically zero-padded `MM/DD/YYYY` rendering succeeds and returns
the same date; when the year is at least 1000 the formatter reproduces
exactly that padded rendering, so the round-trip
`format_date (parse_date s) = s` holds. -/
theorem parse_format_roundtrip (dt : Date) (h : validDate dt) :
    parse_date (paddedMDY dt) = some dt ∧
    (1000 ≤ dt.year →
      format_date dt = paddedMDY dt ∧
      Option.map format_date (parse_date (paddedMDY dt))
        = some (paddedMDY dt)) := by
  have hmain : parse_date (paddedMDY dt) = some dt := by
    unfold parse_date
    rw [pyStrip_eq_self (paddedMDY_no_space dt h), matchMDY_padded dt h]
    dsimp only
    rw [if_pos h]
  refine ⟨hmain, fun hy => ?_⟩
  have hfmt : format_date dt = paddedMDY dt := by
    unfold format_date paddedMDY
    rw [yearChars_eq_pad4 hy]
  refine ⟨hfmt, ?_⟩
  rw [hmain]
  simp [hfmt]

/-- Witness for C4 at the concrete date February 5 of 2024. -/
theorem parse_format_roundtrip_witness :
    parse_date (paddedMDY ⟨2024, 2, 5⟩) = some ⟨2024, 2, 5⟩ ∧
    format_date ⟨2024, 2, 5⟩ = paddedMDY ⟨2024, 2, 5⟩ ∧
    Option.map format_date (parse_date (paddedMDY ⟨2024, 2, 5⟩))
      = some (paddedMDY ⟨2024, 2, 5⟩) := by
  have h := parse_format_roundtrip ⟨2024, 2, 5⟩ (by decide)
  exact ⟨h.1, (h.2 (by decide)).1, (h.2 (by decide)).2⟩

/-! ### C3: the shape of strings accepted by parse_date -/

theorem isDigit_of_range {c : Char} (h1 : '0' ≤ c) (h2 : c ≤ '9') :
    c.isDigit = true := by
  simp only [Char.isDigit, ge_iff_le, Bool.and_eq_true, decide_eq_true_eq]
  exact ⟨h1, h2⟩

theorem isUniDigit_of_isDigit {c : Char} (h : c.isDigit = true) :
    isUniDigit c = true := by
  simp [isUniDigit, h]

theorem parseMonth_shape {cs : List Char} {m : Nat} {rest : List Char}
    (h : parseMonth cs = some (m, rest)) :
    ∃ pre, cs = pre ++ rest ∧ 1 ≤ pre.length ∧ pre.length ≤ 2 ∧
      pre.all Char.isDigit = true := by
  unfold parseMonth at h
  split at h
  · split_ifs at h with hc
    · simp only [Option.some.injEq, Prod.mk.injEq] at h
      obtain ⟨hm, hr⟩ := h
      subst hr
      exact ⟨['1', _], rfl, by simp, by simp,
        by simp [isDigit_of_range (le_trans (by decide) hc.1)
          (le_trans hc.2 (by decide))]⟩
    · simp only [Option.some.injEq, Prod.mk.injEq] at h
      obtain ⟨hm, hr⟩ := h
      subst hr
      exact ⟨['1'], rfl, by simp, by simp, by decide⟩
  · split_ifs at h with hc
    · simp only [Option.some.injEq, Prod.mk.injEq] at h
      obtain ⟨hm, hr⟩ := h
      subst hr
      exact ⟨['0', _], rfl, by simp, by simp,
        by simp [isDigit_of_range (le_trans (by decide) hc.1)
          (le_trans hc.2 (by decide))]⟩
  · split_ifs at h with hc
    · simp only [Option.some.injEq, Prod.mk.injEq] at h
      obtain ⟨hm, hr⟩ := h
      subst hr
      exact ⟨[_], rfl, by simp, by simp,
        by simp [isDigit_of_range (le_trans (by decide) hc.1)
          (le_trans hc.2 (by decide))]⟩
  · exact absurd h (by simp)

theorem parseDay_shape {cs : List Char} {d : Nat} {rest : List Char}
    (h : parseDay cs = some (d, rest)) :
    ∃ pre, cs = pre ++ rest ∧ 1 ≤ pre.length ∧ pre.length ≤ 2 ∧
      pre.all isUniDigit = true := by
  unfold parseDay at h
  split at h
  · split_ifs at h with hc
    · simp only [Option.some.injEq, Prod.mk.injEq] at h
      obtain ⟨hm, hr⟩ := h
      subst hr
      rcases hc with hc | hc <;> subst hc
      · exact ⟨['3', '0'], rfl, by simp, by simp, by decide⟩
      · exact ⟨['3', '1'], rfl, by simp, by simp, by decide⟩
    · simp only [Option.some.injEq, Prod.mk.injEq] at h
      obtain ⟨hm, hr⟩ := h
      subst hr
      exact ⟨['3'], rfl, by simp, by simp, by decide⟩
  · split_ifs at h with hc
    · simp only [Option.some.injEq, Prod.mk.injEq] at h
      obtain ⟨hm, hr⟩ := h
      subst hr
      exact ⟨['1', _], rfl, by simp, by simp,
        by simp [hc, show isUniDigit (Char.ofNat 49) = true by decide]⟩
    · simp only [Option.some.injEq, Prod.mk.injEq] at h
      obtain ⟨hm, hr⟩ := h
      subst hr
      exact ⟨['1'], rfl, by simp, by simp, by decide⟩
  · split_ifs at h with hc
    · simp only [Option.some.injEq, Prod.mk.injEq] at h
      obtain ⟨hm, hr⟩ := h
      subst hr
      exact ⟨['2', _], rfl, by simp, by simp,
        by simp [hc, show isUniDigit (Char.ofNat 50) = true by decide]⟩
    · simp only [Option.some.injEq, Prod.mk.injEq] at h
      obtain ⟨hm, hr⟩ := h
      subst hr
      exact ⟨['2'], rfl, by simp, by simp, by decide⟩
  · split_ifs at h with hc
    · simp only [Option.some.injEq, Prod.mk.injEq] at h
      obtain ⟨hm, hr⟩ := h
      subst hr
      exact ⟨['0', _], rfl, by simp, by simp,
        by simp [show isUniDigit (Char.ofNat 48) = true by decide,
          isUniDigit_of_isDigit (isDigit_of_range
            (le_trans (by decide) hc.1) (le_trans hc.2 (by decide)))]⟩
  · split_ifs at h with hc
    · simp only [Option.some.injEq, Prod.mk.injEq] at h
      obtain ⟨hm, hr⟩ := h
      subst hr
      exact ⟨[_], rfl, by simp, by simp,
        by simp [isUniDigit_of_isDigit (isDigit_of_range
          (le_trans (by decide) hc.1) (le_trans hc.2 (by decide)))]⟩
  · exact absurd h (by simp)

theorem parseYear4_shape {cs : List Char} {y : Nat} {rest : List Char}
    (h : parseYear4 cs = some (y, rest)) :
    ∃ pre, cs = pre ++ rest ∧ pre.length = 4 ∧
      pre.all isUniDigit = true := by
  unfold parseYear4 at h
  split at h
  · split_ifs at h with hd
    · simp only [Option.some.injEq, Prod.mk.injEq] at h
      obtain ⟨hy, hr⟩ := h
      subst hr
      exact ⟨[_, _, _, _], rfl, by simp,
        by simp [hd.1, hd.2.1, hd.2.2.1, hd.2.2.2]⟩
  · exact absurd h (by simp)

theorem matchMDY_shape {cs : List Char} {m d y : Nat}
    (h : matchMDY cs = some (m, d, y)) :
    ∃ mcs dcs ycs, cs = mcs ++ '/' :: (dcs ++ '/' :: ycs) ∧
      1 ≤ mcs.length ∧ mcs.length ≤ 2 ∧ mcs.all Char.isDigit = true ∧
      1 ≤ dcs.length ∧ dcs.length ≤ 2 ∧ dcs.all isUniDigit = true ∧
      ycs.length = 4 ∧ ycs.all isUniDigit = true := by
  unfold matchMDY at h
  split at h
  · exact absurd h (by simp)
  next m1 r1 hm =>
    split at h
    next r2 hr1 =>
      split at h
      · exact absurd h (by simp)
      next d1 r3 hd =>
        split at h
        next r4 hr3 =>
          split at h
          · exact absurd h (by simp)
          next y1 r5 hy =>
            split_ifs at h with hr5
            subst hr5
            simp only [Option.some.injEq, Prod.mk.injEq] at h
            obtain ⟨h1, h2, h3⟩ := h
            obtain ⟨mcs, hmcs, hm1, hm2, hm3⟩ := parseMonth_shape hm
            obtain ⟨dcs, hdcs, hd1, hd2, hd3⟩ := parseDay_shape hd
            obtain ⟨ycs, hycs, hy1, hy2⟩ := parseYear4_shape hy
            subst hmcs hdcs hycs h1 h2 h3
            exact ⟨mcs, dcs, ycs, by simp, hm1, hm2, hm3, hd1, hd2, hd3,
              hy1, hy2⟩
        · exact absurd h (by simp)
    · exact absurd h (by simp)


theorem pyStrip_pad (c : Char) (hc : isPySpace c = true)
    (cs : List Char) : pyStrip (c :: cs ++ [c]) = pyStrip cs := by
  have h1sp : List.dropWhile isPySpace [c] = [] := by
    simp [List.dropWhile_cons, hc]
  unfold pyStrip
  have h0 : (c :: cs ++ [c]).dropWhile isPySpace
      = (cs ++ [c]).dropWhile isPySpace := by
    rw [List.cons_append, List.dropWhile_cons_of_pos hc]
  rw [h0, List.dropWhile_append]
  cases hE : (cs.dropWhile isPySpace).isEmpty
  · simp only [hE, Bool.false_eq_true, if_false]
    rw [List.reverse_append]
    show ((c :: (cs.dropWhile isPySpace).reverse).dropWhile isPySpace).reverse
        = _
    rw [List.dropWhile_cons_of_pos hc]
  · have hnil : cs.dropWhile isPySpace = [] := by
      cases hcl : cs.dropWhile isPySpace
      · rfl
      · rw [hcl] at hE
        exact absurd hE (by simp)
    simp [hE, hnil, h1sp]

def strictMMDDYYYY (s : String) : Bool :=
  match (pyTrim s).data with
  | [m1, m2, s1, d1, d2, s2, y1, y2, y3, y4] =>
      m1.isDigit && m2.isDigit && s1 == '/' && d1.isDigit && d2.isDigit &&
        s2 == '/' && y1.isDigit && y2.isDigit && y3.isDigit && y4.isDigit
  | _ => false

theorem parse_date_not_strict :
    parse_date "1/5/2024" = some ⟨2024, 1, 5⟩ ∧
    strictMMDDYYYY "1/5/2024" = false := by
  decide

/-- C3 (amended): `parse_date` strips surrounding whitespace
(insensitively to any Python whitespace padding) and succeeds only on
slash-separated strings whose stripped form has a one-or-two-ASCII-
digit month, a one-or-two-character day and a four-character year made
of Unicode decimal digits, denoting a valid calendar date; every
parse result is a valid date (so a 13th month or non-numeric text
yields an absent result), and the embedding is a total function into
`Option`, reflecting that no exception escapes. -/
theorem parse_date_loose_shape (s : String) (dt : Date)
    (h : parse_date s = some dt) :
    (∃ mcs dcs ycs, pyStrip s.data = mcs ++ '/' :: (dcs ++ '/' :: ycs) ∧
      1 ≤ mcs.length ∧ mcs.length ≤ 2 ∧ mcs.all Char.isDigit = true ∧
      1 ≤ dcs.length ∧ dcs.length ≤ 2 ∧ dcs.all isUniDigit = true ∧
      ycs.length = 4 ∧ ycs.all isUniDigit = true) ∧
    validDate dt ∧
    ∀ c, isPySpace c = true →
      parse_date (String.mk (c :: s.data ++ [c])) = parse_date s := by
  refine ⟨?_, ?_, ?_⟩
  · unfold parse_date at h
    rcases hM : matchMDY (pyStrip s.data) with _ | ⟨m, d, y⟩
    · rw [hM] at h
      exact absurd h (by simp)
    · exact matchMDY_shape hM
  · unfold parse_date at h
    rcases hM : matchMDY (pyStrip s.data) with _ | ⟨m, d, y⟩ <;> rw [hM] at h
    · exact absurd h (by simp)
    · dsimp only at h
      split_ifs at h with hv
      obtain rfl := Option.some.inj h
      exact hv
  · intro c hc
    show parse_date _ = _
    unfold parse_date
    rw [show (String.mk (c :: s.data ++ [c])).data
        = c :: s.data ++ [c] from rfl, pyStrip_pad c hc]

/-- Witness for C3 at the concrete input `01/1٥/2024` (the day written
as an ASCII `1` followed by the Arabic-Indic digit five, which the
Unicode `\d` of `strptime` accepts as day 15), padded with no-break
spaces for the trimming conjunct. -/
theorem parse_date_loose_shape_witness :
    ((∃ mcs dcs ycs,
      pyStrip "01/1\u0665/2024".data = mcs ++ '/' :: (dcs ++ '/' :: ycs) ∧
      1 ≤ mcs.length ∧ mcs.length ≤ 2 ∧ mcs.all Char.isDigit = true ∧
      1 ≤ dcs.length ∧ dcs.length ≤ 2 ∧ dcs.all isUniDigit = true ∧
      ycs.length = 4 ∧ ycs.all isUniDigit = true) ∧
    validDate ⟨2024, 1, 15⟩ ∧
    parse_date (String.mk ('\u00A0' :: "01/1\u0665/2024".data
      ++ ['\u00A0'])) = parse_date "01/1\u0665/2024") := by
  have h := parse_date_loose_shape "01/1\u0665/2024" ⟨2024, 1, 15⟩
    (by decide)
  exact ⟨h.1, h.2.1, h.2.2 '\u00A0' (by decide)⟩

/-! ### Deduplication (C1, C10) -/

/-- Chronological comparison of two dates, the embedding of the `<`
comparison on `datetime` values (lexicographic on year, month, day). -/
def dateLt (a b : Date) : Bool :=
  decide (a.year < b.year) ||
    (decide (a.year = b.year) &&
      (decide (a.month < b.month) ||
        (decide (a.month = b.month) && decide (a.day < b.day))))

theorem dateLt_true_iff (a b : Date) :
    dateLt a b = true ↔
      (a.year < b.year ∨ (a.year = b.year ∧
        (a.month < b.month ∨ (a.month = b.month ∧ a.day < b.day)))) := by
  simp [dateLt]

theorem dateLt_false_iff (a b : Date) :
    dateLt a b = false ↔
      ¬ (a.year < b.year ∨ (a.year = b.year ∧
        (a.month < b.month ∨ (a.month = b.month ∧ a.day < b.day)))) := by
  rw [← Bool.not_eq_true, dateLt_true_iff]

theorem dateLt_trans {a b c : Date} (h1 : dateLt a b = true)
    (h2 : dateLt b c = true) : dateLt a c = true := by
  rw [dateLt_true_iff] at *
  omega

theorem dateLt_of_not_lt_of_lt {a b c : Date} (h1 : dateLt a b = false)
    (h2 : dateLt a c = true) : dateLt b c = true := by
  rw [dateLt_false_iff] at h1
  rw [dateLt_true_iff] at *
  omega

theorem dateLt_asymm {a b : Date} (h : dateLt a b = true) :
    dateLt b a = false := by
  rw [dateLt_true_iff] at h
  rw [dateLt_false_iff]
  omega

theorem dateLt_irrefl (a : Date) : dateLt a a = false := by
  rw [dateLt_false_iff]
  omega

/-- The record produced for each surviving row
(`ExtensionRecord` dataclass). -/
structure ExtensionRecord where
  email : String
  name : String
  assignment : String
  requested_date : Date
  row_num : Nat
  original_date : Option Date := none
  due_date : Option Date := none
deriving DecidableEq

/-- The deduplication key `(record.assignment, record.email)`. -/
def recKey (r : ExtensionRecord) : String × String :=
  (r.assignment, r.email)

/-- One step of the deduplication loop, i.e. the Python dict update:
if the key is absent the record is appended (a new dict entry keeps
insertion order), otherwise the stored record is replaced in place
exactly when the new requested date is strictly later. -/
def insertRec (acc : List ExtensionRecord) (r : ExtensionRecord) :
    List ExtensionRecord :=
  match acc with
  | [] => [r]
  | a :: rest =>
    if recKey a = recKey r then
      (if dateLt a.requested_date r.requested_date then r else a) :: rest
    else a :: insertRec rest r

/-- `deduplicate_records`: keep only the latest date for each
`(assignment, email)` combination, first-seen wins on ties; the result
is the list of dict values in insertion order of the keys. -/
def deduplicate_records (records : List ExtensionRecord) :
    List ExtensionRecord :=
  records.foldl insertRec []

/-- Python `set.add` combined with insertion order bookkeeping: append
an element only when it is not already present. -/
def insertNew {α : Type} [DecidableEq α] (l : List α) (a : α) : List α :=
  if a ∈ l then l else l ++ [a]

/-- The distinct elements of a list in order of first occurrence (the
key order of a Python dict built by one pass over the list). -/
def firstOccur {α : Type} [DecidableEq α] (l : List α) : List α :=
  l.foldl insertNew []

/-- `r` sits somewhere in `l`, every earlier record with the same key
has a strictly earlier requested date, and no later record with the
same key has a strictly later one: `r` is the first-encountered
maximum of its key group. -/
def IsFirstMaxOf (l : List ExtensionRecord) (r : ExtensionRecord) : Prop :=
  ∃ l₁ l₂, l = l₁ ++ r :: l₂ ∧
    (∀ x ∈ l₁, recKey x = recKey r →
      dateLt x.requested_date r.requested_date = true) ∧
    (∀ x ∈ l₂, recKey x = recKey r →
      dateLt r.requested_date x.requested_date = false)

theorem mem_insertNew {α : Type} [DecidableEq α] {l : List α} {a b : α} :
    b ∈ insertNew l a ↔ b ∈ l ∨ b = a := by
  unfold insertNew
  split_ifs with h
  · constructor
    · exact Or.inl
    · rintro (hb | rfl) <;> assumption
  · simp

theorem mem_foldl_insertNew {α : Type} [DecidableEq α] (l acc : List α)
    (b : α) : b ∈ l.foldl insertNew acc ↔ b ∈ acc ∨ b ∈ l := by
  induction l generalizing acc with
  | nil => simp
  | cons a t ih =>
    simp only [List.foldl_cons, ih, mem_insertNew, List.mem_cons]
    tauto

theorem nodup_insertNew {α : Type} [DecidableEq α] {l : List α} {a : α}
    (h : l.Nodup) : (insertNew l a).Nodup := by
  unfold insertNew
  split_ifs with hm
  · exact h
  · simp [List.nodup_append, h, hm]

theorem nodup_foldl_insertNew {α : Type} [DecidableEq α] (l acc : List α)
    (h : acc.Nodup) : (l.foldl insertNew acc).Nodup := by
  induction l generalizing acc with
  | nil => exact h
  | cons a t ih => exact ih _ (nodup_insertNew h)

theorem length_foldl_insertNew {α : Type} [DecidableEq α] (l acc : List α) :
    (l.foldl insertNew acc).length ≤ acc.length + l.length := by
  induction l generalizing acc with
  | nil => simp
  | cons a t ih =>
    refine le_trans (ih (insertNew acc a)) ?_
    have : (insertNew acc a).length ≤ acc.length + 1 := by
      unfold insertNew
      split_ifs <;> simp
    simp only [List.length_cons]
    omega

theorem insertRec_of_not_mem {acc : List ExtensionRecord}
    {r : ExtensionRecord} (h : recKey r ∉ acc.map recKey) :
    insertRec acc r = acc ++ [r] := by
  induction acc with
  | nil => rfl
  | cons a t ih =>
    simp only [List.map_cons, List.mem_cons, not_or] at h
    unfold insertRec
    rw [if_neg (fun he => h.1 he.symm), ih h.2]
    rfl

theorem insertRec_of_mem {acc : List ExtensionRecord} {r : ExtensionRecord}
    (hnd : (acc.map recKey).Nodup) (h : recKey r ∈ acc.map recKey) :
    ∃ l₁ a l₂, acc = l₁ ++ a :: l₂ ∧ recKey a = recKey r ∧
      (∀ x ∈ l₁, recKey x ≠ recKey r) ∧ (∀ x ∈ l₂, recKey x ≠ recKey r) ∧
      insertRec acc r = l₁ ++
        (if dateLt a.requested_date r.requested_date then r else a) :: l₂ := by
  induction acc with
  | nil => simp at h
  | cons a t ih =>
    simp only [List.map_cons, List.nodup_cons] at hnd
    by_cases hk : recKey a = recKey r
    · refine ⟨[], a, t, rfl, hk, by simp, ?_, ?_⟩
      · intro x hx he
        exact hnd.1 (by rw [hk, ← he]; exact List.mem_map_of_mem recKey hx)
      · unfold insertRec
        rw [if_pos hk]
        rfl
    · have h2 : recKey r ∈ t.map recKey := by
        rcases List.mem_cons.mp h with hc | hc
        · exact absurd hc.symm hk
        · exact hc
      obtain ⟨l₁, b, l₂, hacc, hb, hl₁, hl₂, hins⟩ := ih hnd.2 h2
      refine ⟨a :: l₁, b, l₂, by rw [hacc]; rfl, hb, ?_, hl₂, ?_⟩
      · intro x hx
        rcases List.mem_cons.mp hx with rfl | hx
        · exact hk
        · exact hl₁ x hx
      · unfold insertRec
        rw [if_neg hk, hins]
        rfl


theorem extend_suffix_vacuous {l : List ExtensionRecord}
    {b r : ExtensionRecord} (hmax : IsFirstMaxOf l b)
    (hne : recKey r ≠ recKey b) : IsFirstMaxOf (l ++ [r]) b := by
  obtain ⟨q₁, q₂, hsplit, hq1, hq2⟩ := hmax
  refine ⟨q₁, q₂ ++ [r], by rw [hsplit]; simp, hq1, ?_⟩
  intro x hx hkx
  rcases List.mem_append.mp hx with hx | hx
  · exact hq2 x hx hkx
  · simp only [List.mem_singleton] at hx
    subst hx
    exact absurd hkx hne

theorem dedup_invariant (l : List ExtensionRecord) :
    (deduplicate_records l).map recKey = firstOccur (l.map recKey) ∧
    ∀ a ∈ deduplicate_records l, IsFirstMaxOf l a := by
  induction l using List.reverseRecOn with
  | nil => exact ⟨rfl, by simp [deduplicate_records]⟩
  | append_singleton l r ih =>
    obtain ⟨ih1, ih2⟩ := ih
    have hdc : deduplicate_records (l ++ [r])
        = insertRec (deduplicate_records l) r := by
      simp [deduplicate_records, List.foldl_append]
    have hfo : firstOccur ((l ++ [r]).map recKey)
        = insertNew (firstOccur (l.map recKey)) (recKey r) := by
      simp [firstOccur, List.foldl_append]
    have hnd : ((deduplicate_records l).map recKey).Nodup := by
      rw [ih1]
      exact nodup_foldl_insertNew _ _ (by simp)
    by_cases hmem : recKey r ∈ (deduplicate_records l).map recKey
    · -- the key is already present: one stored record is updated in place
      obtain ⟨l₁, a, l₂, hacc, hka, hl₁, hl₂, hins⟩ :=
        insertRec_of_mem hnd hmem
      have hkpick : recKey
          (if dateLt a.requested_date r.requested_date then r else a)
          = recKey a := by
        split_ifs
        · exact hka.symm
        · rfl
      have hain : a ∈ deduplicate_records l := by
        rw [hacc]
        exact List.mem_append_right _ (List.mem_cons_self a l₂)
      have hmaxa : IsFirstMaxOf l a := ih2 a hain
      constructor
      · rw [hdc, hins, hfo]
        have hkeq : (l₁ ++ (if dateLt a.requested_date r.requested_date
            then r else a) :: l₂).map recKey
            = (deduplicate_records l).map recKey := by
          rw [hacc]
          simp [hkpick]
        rw [hkeq, ih1]
        unfold insertNew
        rw [if_pos (by rw [← ih1]; exact hmem)]
      · rw [hdc, hins]
        intro b hb
        rcases List.mem_append.mp hb with hb | hb
        · -- untouched entries before the updated one
          have hbl : b ∈ deduplicate_records l := by
            rw [hacc]
            exact List.mem_append_left _ hb
          exact extend_suffix_vacuous (ih2 b hbl)
            (fun he => hl₁ b hb he.symm)
        · rcases List.mem_cons.mp hb with rfl | hb
          · -- the updated entry itself
            obtain ⟨q₁, q₂, hsplit, hq1, hq2⟩ := hmaxa
            by_cases hlt : dateLt a.requested_date r.requested_date = true
            · rw [if_pos hlt] at hb ⊢
              refine ⟨l, [], rfl, ?_, by simp⟩
              intro x hx hkx
              have hkxa : recKey x = recKey a := by rw [hkx, hka]
              rw [hsplit] at hx
              rcases List.mem_append.mp hx with hx | hx
              · exact dateLt_trans (hq1 x hx hkxa) hlt
              · rcases List.mem_cons.mp hx with rfl | hx
                · exact hlt
                · exact dateLt_of_not_lt_of_lt (hq2 x hx hkxa) hlt
            · rw [if_neg hlt] at hb ⊢
              have hnlt : dateLt a.requested_date r.requested_date
                  = false := by
                rw [← Bool.not_eq_true]
                exact hlt
              refine ⟨q₁, q₂ ++ [r], by rw [hsplit]; simp, hq1, ?_⟩
              intro x hx hkx
              rcases List.mem_append.mp hx with hx | hx
              · exact hq2 x hx hkx
              · simp only [List.mem_singleton] at hx
                subst hx
                exact hnlt
          · -- untouched entries after the updated one
            have hbl : b ∈ deduplicate_records l := by
              rw [hacc]
              exact List.mem_append_right _ (List.mem_cons_of_mem a hb)
            exact extend_suffix_vacuous (ih2 b hbl)
              (fun he => hl₂ b hb he.symm)
    · -- a fresh key: the record is appended at the end
      have hnotl : recKey r ∉ l.map recKey := by
        intro hc
        apply hmem
        rw [ih1]
        exact (mem_foldl_insertNew _ _ _).mpr (Or.inr hc)
      rw [hdc, insertRec_of_not_mem hmem]
      constructor
      · rw [hfo, List.map_append, ih1]
        have hnotfo : recKey r ∉ firstOccur (l.map recKey) := by
          intro hc
          rcases (mem_foldl_insertNew _ _ _).mp hc with h0 | h0
          · simp at h0
          · exact hnotl h0
        unfold insertNew
        rw [if_neg hnotfo]
        rfl
      · intro b hb
        rcases List.mem_append.mp hb with hb | hb
        · have hne : recKey r ≠ recKey b := by
            intro he
            apply hmem
            rw [he]
            exact List.mem_map_of_mem recKey hb
          exact extend_suffix_vacuous (ih2 b hb) hne
        · simp only [List.mem_singleton] at hb
          subst hb
          refine ⟨l, [], rfl, ?_, by simp⟩
          intro x hx hkx
          exact absurd (hkx ▸ List.mem_map_of_mem recKey hx) hnotl

/-- C1: deduplication keeps exactly one record per distinct
`(assignment, email)` key occurring in the input; each kept record is
an input record whose requested date no same-key input exceeds, and it
is the first-encountered maximum of its key group (ties keep the
first); the output is never longer than the input. -/
theorem deduplicate_records_spec (l : List ExtensionRecord) :
    ((deduplicate_records l).map recKey).Nodup ∧
    (∀ k, k ∈ (deduplicate_records l).map recKey ↔ k ∈ l.map recKey) ∧
    (∀ a ∈ deduplicate_records l, a ∈ l ∧
      (∀ x ∈ l, recKey x = recKey a →
        dateLt a.requested_date x.requested_date = false) ∧
      IsFirstMaxOf l a) ∧
    (deduplicate_records l).length ≤ l.length := by
  obtain ⟨h1, h2⟩ := dedup_invariant l
  refine ⟨?_, ?_, ?_, ?_⟩
  · rw [h1]
    exact nodup_foldl_insertNew _ _ (by simp)
  · intro k
    rw [h1]
    unfold firstOccur
    rw [mem_foldl_insertNew]
    simp
  · intro a ha
    obtain ⟨q₁, q₂, hsplit, hq1, hq2⟩ := h2 a ha
    refine ⟨?_, ?_, h2 a ha⟩
    · rw [hsplit]
      exact List.mem_append_right _ (List.mem_cons_self _ _)
    · intro x hx hkx
      rw [hsplit] at hx
      rcases List.mem_append.mp hx with hx | hx
      · exact dateLt_asymm (hq1 x hx hkx)
      · rcases List.mem_cons.mp hx with rfl | hx
        · exact dateLt_irrefl _
        · exact hq2 x hx hkx
  · have hlen : (deduplicate_records l).length
        = ((deduplicate_records l).map recKey).length := by
      rw [List.length_map]
    rw [hlen, h1]
    have hle := length_foldl_insertNew (l.map recKey) []
    unfold firstOccur
    simpa using hle

/-- C10: the deduplicated output lists the surviving record of each
key in the order in which that key first occurred in the input. -/
theorem deduplicate_records_key_order (l : List ExtensionRecord) :
    (deduplicate_records l).map recKey = firstOccur (l.map recKey) :=
  (dedup_invariant l).1

/-- Records of the duplicate-submission unit test, used as witness
data. -/
def recAliceEarly : ExtensionRecord :=
  ⟨"a@example.com", "Alice", "HW1", ⟨2024, 2, 1⟩, 2, none, none⟩

def recAliceLate : ExtensionRecord :=
  ⟨"a@example.com", "Alice", "HW1", ⟨2024, 2, 5⟩, 3, none, none⟩

def recBob : ExtensionRecord :=
  ⟨"b@example.com", "Bob", "HW1", ⟨2024, 2, 3⟩, 4, none, none⟩

/-- Witness for C1: on a concrete three-record input with one
duplicated key, the kept duplicate is the later-dated one, its date is
not exceeded by the earlier same-key record, and the output is no
longer than the input. -/
theorem deduplicate_records_spec_witness :
    recAliceLate ∈ deduplicate_records [recAliceEarly, recAliceLate, recBob] ∧
    dateLt recAliceLate.requested_date recAliceEarly.requested_date
      = false ∧
    (deduplicate_records [recAliceEarly, recAliceLate, recBob]).length
      ≤ ([recAliceEarly, recAliceLate, recBob] :
          List ExtensionRecord).length := by
  have h := deduplicate_records_spec [recAliceEarly, recAliceLate, recBob]
  exact ⟨by decide,
    (h.2.2.1 recAliceLate (by decide)).2.1 recAliceEarly (by decide)
      (by decide),
    h.2.2.2⟩

/-! ### Table parsing (C5, C6, C7) -/

/-- Configuration for expected column names in the input data. -/
structure ColumnConfig where
  email : String := "Email"
  name : String := "Name"
  assignment : String := "Which assignment due date do you want to change?"
  date : String := "What would you like to new date to be change too?"
  done : String := "DONE?"
deriving DecidableEq

/-- The list of required column names. -/
def ColumnConfig.required (c : ColumnConfig) : List String :=
  [c.email, c.name, c.assignment, c.date]

def DEFAULT_COLUMNS : ColumnConfig := {}

/-- An error encountered during parsing. -/
structure ParseError where
  message : String
  row : Option Nat := none
  line : Option String := none
deriving DecidableEq

/-- Metadata about the parsed table.  The input is modelled after the
CSV reader, as a list of already-split field rows, so the detected
delimiter is outside this embedding; `col_map`, the Python name-to-
index dict built by enumerating the stripped header, is modelled by
the stripped header itself together with last-index lookup
(`colIdx`), since a dict assignment for a duplicated name keeps the
last index. -/
structure TableData where
  header : List String
  rows : List (Nat × List String) := []
  col_map : List String := []
  all_assignments : List String := []
deriving DecidableEq

def colIdxAux : List String → String → Nat → Option Nat
  | [], _, _ => none
  | h :: t, n, i =>
    match colIdxAux t n (i + 1) with
    | some j => some j
    | none => if h = n then some i else none

/-- Dict lookup `col_map.get(name)`: the index of the last occurrence
of `name` in the header. -/
def colIdx (hdr : List String) (name : String) : Option Nat :=
  colIdxAux hdr name 0

/-- Header cell normalisation: `col.strip().lstrip("\ufeff")`. -/
def headerCell (c : String) : String :=
  ⟨(pyTrim c).data.dropWhile (fun ch => ch = '\uFEFF')⟩

def strippedHeader (raw : List String) : List String :=
  raw.map headerCell

/-- `[col for col in columns.required if col not in col_map]`. -/
def missingCols (raw : List String) (columns : ColumnConfig) : List String :=
  columns.required.filter (fun c => decide (c ∉ strippedHeader raw))

/-- `fields[i].strip() if i < len(fields) else ""`. -/
def extractField (fields : List String) (i : Nat) : String :=
  if i < fields.length then pyTrim (fields.getD i "") else ""

/-- Right-pad the field list with empty strings up to the header
length (rows longer than the header are kept as they are). -/
def paddedFields (hlen : Nat) (fields : List String) : List String :=
  fields ++ List.replicate (hlen - fields.length) ""

def rowEmail (columns : ColumnConfig) (header : List String)
    (fields : List String) : String :=
  extractField fields ((colIdx header columns.email).getD 0)

def rowName (columns : ColumnConfig) (header : List String)
    (fields : List String) : String :=
  extractField fields ((colIdx header columns.name).getD 0)

def rowAssignment (columns : ColumnConfig) (header : List String)
    (fields : List String) : String :=
  extractField fields ((colIdx header columns.assignment).getD 0)

def rowDateStr (columns : ColumnConfig) (header : List String)
    (fields : List String) : String :=
  extractField fields ((colIdx header columns.date).getD 0)

/-- The already-handled test: a done column exists, its index is in
range, and the stripped cell is exactly the sentinel `*`. -/
def rowDone (columns : ColumnConfig) (header : List String)
    (fields : List String) : Bool :=
  match colIdx header columns.done with
  | some dc => decide (dc < fields.length) && (pyTrim (fields.getD dc "") == "*")
  | none => false

/-- The names of the required fields whose extracted value is blank,
in the fixed order checked by the code. -/
def missingFields (email nm assignment dstr : String) : List String :=
  (if email = "" then ["Email"] else []) ++
  (if nm = "" then ["Name"] else []) ++
  (if assignment = "" then ["Assignment"] else []) ++
  (if dstr = "" then ["RequestedDate"] else [])

/-- A row is skipped when every field strips to the empty string. -/
def isBlankRow (fields : List String) : Bool :=
  fields.all (fun f => pyTrim f == "")

/-- The parser state threaded through the row loop. -/
structure PState where
  records : List ExtensionRecord := []
  errors : List ParseError := []
  trows : List (Nat × List String) := []
  assigns : List String := []
deriving DecidableEq

/-- One iteration of the row loop of `process_extension_data`. -/
def processRow (columns : ColumnConfig) (hlen : Nat) (header : List String)
    (st : PState) (row_num : Nat) (fields0 : List String) : PState :=
  if isBlankRow fields0 then st
  else
    let fields := paddedFields hlen fields0
    let trows := st.trows ++ [(row_num, fields)]
    let assignment := rowAssignment columns header fields
    let assigns := if assignment = "" then st.assigns
      else insertNew st.assigns assignment
    if rowDone columns header fields then
      ⟨st.records, st.errors, trows, assigns⟩
    else
      let email := rowEmail columns header fields
      let nm := rowName columns header fields
      let dstr := rowDateStr columns header fields
      let missing := missingFields email nm assignment dstr
      if missing ≠ [] then
        ⟨st.records,
         st.errors ++ [⟨"Missing fields (" ++ String.intercalate ", " missing
           ++ ")", some row_num, some (String.intercalate "\t" fields)⟩],
         trows, assigns⟩
      else
        match parse_date dstr with
        | none =>
            ⟨st.records,
             st.errors ++ [⟨"Invalid date format " ++ sq ++ dstr ++ sq
               ++ " (expected MM/DD/YYYY)", some row_num,
               some (String.intercalate "\t" fields)⟩],
             trows, assigns⟩
        | some d =>
            ⟨st.records
               ++ [⟨email, nm, assignment, d, row_num, none, none⟩],
             st.errors, trows, assigns⟩

/-- Generic insertion step of a stable insertion sort: the new element
goes after every element that is `le` it, so equal elements keep their
original relative order (Python `list.sort` is stable). -/
def insertLe {α : Type} (le : α → α → Bool) (x : α) : List α → List α
  | [] => [x]
  | y :: ys => if le y x then y :: insertLe le x ys else x :: y :: ys

def sortLe {α : Type} (le : α → α → Bool) (l : List α) : List α :=
  l.foldl (fun acc x => insertLe le x acc) []

/-- Lexicographic comparison of character lists by code point, the
ordering Python uses on strings. -/
def chListLe : List Char → List Char → Bool
  | [], _ => true
  | _ :: _, [] => false
  | a :: as, b :: bs =>
    if a.toNat < b.toNat then true
    else if b.toNat < a.toNat then false
    else chListLe as bs

def strLe (a b : String) : Bool :=
  chListLe a.data b.data

def sortStrings (l : List String) : List String :=
  sortLe strLe l

/-- `process_extension_data` on pre-split rows: header handling and
required-column validation, then the row loop with row numbers
starting at 2, then the table metadata with the sorted set of observed
assignment names. -/
def process_extension_data (rows : List (List String))
    (columns : ColumnConfig) :
    List ExtensionRecord × List ParseError × Option TableData :=
  match rows with
  | [] => ([], [], none)
  | raw_header :: dataRows =>
    let header := strippedHeader raw_header
    if missingCols raw_header columns ≠ [] then
      ([], [⟨"Missing required columns: "
        ++ String.intercalate ", " (missingCols raw_header columns),
        none, none⟩], none)
    else
      let st := (dataRows.enumFrom 2).foldl
        (fun st p => processRow columns raw_header.length header st p.1 p.2)
        ⟨[], [], [], []⟩
      (st.records, st.errors,
       some ⟨raw_header, st.trows, header, sortStrings st.assigns⟩)


def defaultHeader : List String :=
  ["Email", "Name", "Which assignment due date do you want to change?",
   "What would you like to new date to be change too?", "DONE?"]

/-- C5: when one or more required logical columns are absent from the
stripped header, parsing aborts with zero records, no table metadata,
and exactly one structural error whose message joins the names of all
of the missing columns; every absent required column appears in that
list. -/
theorem process_missing_columns (raw : List String)
    (dataRows : List (List String)) (columns : ColumnConfig)
    (h : missingCols raw columns ≠ []) :
    process_extension_data (raw :: dataRows) columns =
      ([], [⟨"Missing required columns: "
        ++ String.intercalate ", " (missingCols raw columns), none, none⟩],
       none) ∧
    ∀ c ∈ columns.required, c ∉ strippedHeader raw →
      c ∈ missingCols raw columns := by
  constructor
  · simp only [process_extension_data]
    rw [if_pos h]
  · intro c hc hn
    unfold missingCols
    rw [List.mem_filter]
    exact ⟨hc, by simpa using hn⟩

/-- Witness for C5: a header containing only the email and name
columns is rejected with the single structural error naming the two
missing columns. -/
theorem process_missing_columns_witness :
    process_extension_data [["Email", "Name"]] DEFAULT_COLUMNS =
      ([], [⟨"Missing required columns: "
        ++ String.intercalate ", " (missingCols ["Email", "Name"]
          DEFAULT_COLUMNS), none, none⟩], none) ∧
    missingCols ["Email", "Name"] DEFAULT_COLUMNS =
      ["Which assignment due date do you want to change?",
       "What would you like to new date to be change too?"] :=
  ⟨(process_missing_columns ["Email", "Name"] [] DEFAULT_COLUMNS
      (by decide)).1,
   by decide⟩

/-- C6: a non-blank, not already-handled row with one or more blank
required fields contributes no record and exactly one parse error
whose message joins the names of all of the blank fields (each blank
field is named in it), while the raw row and its assignment are still
retained; processing then continues from the resulting state. -/
theorem processRow_missing_fields (columns : ColumnConfig) (hlen : Nat)
    (header : List String) (st : PState) (rn : Nat)
    (fields0 : List String) (e nm asg ds : String)
    (he : rowEmail columns header (paddedFields hlen fields0) = e)
    (hn : rowName columns header (paddedFields hlen fields0) = nm)
    (ha : rowAssignment columns header (paddedFields hlen fields0) = asg)
    (hs : rowDateStr columns header (paddedFields hlen fields0) = ds)
    (hb : isBlankRow fields0 = false)
    (hd : rowDone columns header (paddedFields hlen fields0) = false)
    (hm : missingFields e nm asg ds ≠ []) :
    processRow columns hlen header st rn fields0 =
      ⟨st.records,
       st.errors ++ [⟨"Missing fields (" ++ String.intercalate ", "
           (missingFields e nm asg ds) ++ ")", some rn,
         some (String.intercalate "\t" (paddedFields hlen fields0))⟩],
       st.trows ++ [(rn, paddedFields hlen fields0)],
       if asg = "" then st.assigns else insertNew st.assigns asg⟩ ∧
    (e = "" → "Email" ∈ missingFields e nm asg ds) ∧
    (nm = "" → "Name" ∈ missingFields e nm asg ds) ∧
    (asg = "" → "Assignment" ∈ missingFields e nm asg ds) ∧
    (ds = "" → "RequestedDate" ∈ missingFields e nm asg ds) := by
  subst he hn ha hs
  refine ⟨?_, ?_, ?_, ?_, ?_⟩
  · simp only [processRow, hb, hd, hm, Bool.false_eq_true, if_false,
      ne_eq, not_false_eq_true, if_true, ite_not]
  · intro h0
    simp [missingFields, h0]
  · intro h0
    simp [missingFields, h0]
  · intro h0
    simp [missingFields, h0]
  · intro h0
    simp [missingFields, h0]

/-- Witness for C6: the spec scenario of a row with a blank email and
a blank requested date yields, from the empty state, the single error
naming both, no record, and the retained row and assignment. -/
theorem processRow_missing_fields_witness :
    processRow DEFAULT_COLUMNS 5 defaultHeader ⟨[], [], [], []⟩ 2
      ["", "Alice", "HW1", "", ""] =
      ⟨[],
       [⟨"Missing fields (" ++ String.intercalate ", "
           (missingFields "" "Alice" "HW1" "") ++ ")", some 2,
         some (String.intercalate "\t"
           (paddedFields 5 ["", "Alice", "HW1", "", ""]))⟩],
       [(2, paddedFields 5 ["", "Alice", "HW1", "", ""])],
       if "HW1" = "" then [] else insertNew [] "HW1"⟩ ∧
    "Email" ∈ missingFields "" "Alice" "HW1" "" ∧
    "RequestedDate" ∈ missingFields "" "Alice" "HW1" "" := by
  have h := processRow_missing_fields DEFAULT_COLUMNS 5 defaultHeader
    ⟨[], [], [], []⟩ 2 ["", "Alice", "HW1", "", ""]
    "" "Alice" "HW1" "" (by decide) (by decide) (by decide) (by decide)
    (by decide) (by decide) (by decide)
  exact ⟨h.1, h.2.1 rfl, h.2.2.2.2 rfl⟩

/-- C7: a non-blank row whose already-handled marker is the sentinel
`*` produces neither a record nor an error, but its raw padded row,
with its row number, is still retained and its non-empty assignment
name still enters the seen-assignments set. -/
theorem processRow_already_done (columns : ColumnConfig) (hlen : Nat)
    (header : List String) (st : PState) (rn : Nat)
    (fields0 : List String)
    (hb : isBlankRow fields0 = false)
    (hd : rowDone columns header (paddedFields hlen fields0) = true) :
    processRow columns hlen header st rn fields0 =
      ⟨st.records, st.errors,
       st.trows ++ [(rn, paddedFields hlen fields0)],
       if rowAssignment columns header (paddedFields hlen fields0) = ""
         then st.assigns
         else insertNew st.assigns
           (rowAssignment columns header (paddedFields hlen fields0))⟩ ∧
    (rowAssignment columns header (paddedFields hlen fields0) ≠ "" →
      rowAssignment columns header (paddedFields hlen fields0) ∈
        (if rowAssignment columns header (paddedFields hlen fields0) = ""
          then st.assigns
          else insertNew st.assigns
            (rowAssignment columns header (paddedFields hlen fields0)))) := by
  constructor
  · simp only [processRow, hb, hd, Bool.false_eq_true, if_false, if_true]
  · intro h0
    rw [if_neg h0]
    exact mem_insertNew.mpr (Or.inr rfl)

/-- Witness for C7: the already-handled Bob row of the spec scenario
is retained in the metadata with its assignment but yields no record
and no error. -/
theorem processRow_already_done_witness :
    processRow DEFAULT_COLUMNS 5 defaultHeader ⟨[], [], [], []⟩ 3
      ["b@example.com", "Bob", "HW1", "02/05/2024", "*"] =
      ⟨[], [],
       [(3, paddedFields 5 ["b@example.com", "Bob", "HW1", "02/05/2024",
         "*"])],
       if rowAssignment DEFAULT_COLUMNS defaultHeader
           (paddedFields 5 ["b@example.com", "Bob", "HW1", "02/05/2024",
             "*"]) = ""
         then []
         else insertNew []
           (rowAssignment DEFAULT_COLUMNS defaultHeader
             (paddedFields 5 ["b@example.com", "Bob", "HW1", "02/05/2024",
               "*"]))⟩ ∧
    rowAssignment DEFAULT_COLUMNS defaultHeader
      (paddedFields 5 ["b@example.com", "Bob", "HW1", "02/05/2024", "*"])
      ∈ (if rowAssignment DEFAULT_COLUMNS defaultHeader
          (paddedFields 5 ["b@example.com", "Bob", "HW1", "02/05/2024",
            "*"]) = ""
        then ([] : List String)
        else insertNew []
          (rowAssignment DEFAULT_COLUMNS defaultHeader
            (paddedFields 5 ["b@example.com", "Bob", "HW1", "02/05/2024",
              "*"]))) ∧
    rowAssignment DEFAULT_COLUMNS defaultHeader
      (paddedFields 5 ["b@example.com", "Bob", "HW1", "02/05/2024", "*"])
      = "HW1" := by
  have h := processRow_already_done DEFAULT_COLUMNS 5 defaultHeader
    ⟨[], [], [], []⟩ 3 ["b@example.com", "Bob", "HW1", "02/05/2024", "*"]
    (by decide) (by decide)
  exact ⟨h.1, h.2 (by decide), by decide⟩

/-! ### Output generation (C8) and the processed copy (C9) -/

/-- A character kept verbatim by `sanitize_filename`
(`[a-z0-9]` after lowering). -/
def isAlnumLower (c : Char) : Bool :=
  ('a' ≤ c && c ≤ 'z') || ('0' ≤ c && c ≤ '9')

/-- `re.sub(r"[^a-z0-9]+", "_", text)`: replace every maximal run of
non-matching characters by one underscore. -/
def collapseRuns : List Char → List Char
  | [] => []
  | c :: rest =>
    if isAlnumLower c then c :: collapseRuns rest
    else '_' :: collapseRuns (rest.dropWhile (fun x => !isAlnumLower x))
termination_by l => l.length
decreasing_by
  · simp only [List.length_cons]
    omega
  · have hsub : (rest.dropWhile (fun x => !isAlnumLower x)).length
        ≤ rest.length := (List.dropWhile_sublist _).length_le
    simp only [List.length_cons]
    omega

/-- Python `str.strip` with the underscore argument. -/
def stripUnderscore (cs : List Char) : List Char :=
  ((cs.dropWhile (fun c => c = '_')).reverse.dropWhile
    (fun c => c = '_')).reverse

/-- `sanitize_filename`: lower-case, collapse non-alphanumeric runs to
single underscores, strip leading and trailing underscores. -/
def sanitize_filename (s : String) : String :=
  ⟨stripUnderscore (collapseRuns (s.data.map Char.toLower))⟩

/-- The per-assignment output summary entry. -/
structure FileInfo where
  assignment : String
  filename : String
  num_students : Nat
  earliest_date : String
  latest_date : String
deriving DecidableEq

/-- Python `min` over a nonempty list: the first minimum wins. -/
def listMinD (d : Date) (ds : List Date) : Date :=
  ds.foldl (fun a b => if dateLt b a then b else a) d

/-- Python `max` over a nonempty list: the first maximum wins. -/
def listMaxD (d : Date) (ds : List Date) : Date :=
  ds.foldl (fun a b => if dateLt a b then b else a) d

/-- The summary entry of one assignment group: name, sanitized
filename with the fixed suffix, row count, and the formatted earliest
and latest due dates, or the sentinel when no due dates exist. -/
def mkFileInfo (assignment : String) (g : List ExtensionRecord) :
    FileInfo :=
  { assignment := assignment
    filename := sanitize_filename assignment ++ "_extensions.csv"
    num_students := g.length
    earliest_date := match g.filterMap (fun r => r.due_date) with
      | [] => "N/A"
      | d :: ds => format_date (listMinD d ds)
    latest_date := match g.filterMap (fun r => r.due_date) with
      | [] => "N/A"
      | d :: ds => format_date (listMaxD d ds) }

def sortRecordsByEmail (l : List ExtensionRecord) : List ExtensionRecord :=
  sortLe (fun a b => strLe a.email b.email) l

/-- The keys of the `by_assignment` dict: assignment names of the
records in first-occurrence order, then the supplied all-seen names
not already present (an absent or empty list adds nothing, matching
the Python truthiness test). -/
def outputKeys (records : List ExtensionRecord)
    (all_assignments : Option (List String)) : List String :=
  (all_assignments.getD []).foldl insertNew
    (firstOccur (records.map (fun r => r.assignment)))

/-- `create_output_files` in its preview semantics: group records by
assignment (adding empty groups for the remaining all-seen names),
iterate the groups in sorted key order with each group sorted by
email, and return the summary entries together with the group contents
that would be written. -/
def create_output_files (records : List ExtensionRecord)
    (all_assignments : Option (List String)) :
    List FileInfo × List (String × List ExtensionRecord) :=
  let keys := sortStrings (outputKeys records all_assignments)
  let groups := keys.map (fun k =>
    (k, sortRecordsByEmail (records.filter (fun r => r.assignment == k))))
  (groups.map (fun p => mkFileInfo p.1 p.2), groups)

/-! ### Sorting lemmas -/

theorem chListLe_total (as bs : List Char) :
    chListLe as bs = true ∨ chListLe bs as = true := by
  induction as generalizing bs with
  | nil => exact Or.inl rfl
  | cons a at2 ih =>
    cases bs with
    | nil => exact Or.inr rfl
    | cons b bt =>
      unfold chListLe
      rcases Nat.lt_trichotomy a.toNat b.toNat with h | h | h
      · refine Or.inl ?_
        rw [if_pos h]
      · rw [if_neg (by omega), if_neg (by omega),
          if_neg (by omega), if_neg (by omega)]
        exact ih bt
      · refine Or.inr ?_
        rw [if_pos h]

theorem chListLe_trans {as bs cs : List Char}
    (h1 : chListLe as bs = true) (h2 : chListLe bs cs = true) :
    chListLe as cs = true := by
  induction as generalizing bs cs with
  | nil => rfl
  | cons a at2 ih =>
    cases bs with
    | nil => exact absurd h1 (by simp [chListLe])
    | cons b bt =>
      cases cs with
      | nil => exact absurd h2 (by simp [chListLe])
      | cons c ct =>
        unfold chListLe at h1 h2 ⊢
        rcases Nat.lt_trichotomy a.toNat b.toNat with hab | hab | hab
        · rcases Nat.lt_trichotomy b.toNat c.toNat with hbc | hbc | hbc
          · rw [if_pos (by omega)]
          · rw [if_pos (by omega)]
          · rw [if_neg (by omega), if_pos hbc] at h2
            exact absurd h2 (by simp)
        · rcases Nat.lt_trichotomy b.toNat c.toNat with hbc | hbc | hbc
          · rw [if_pos (by omega)]
          · rw [if_neg (by omega), if_neg (by omega)]
            rw [if_neg (by omega), if_neg (by omega)] at h1 h2
            exact ih h1 h2
          · rw [if_neg (by omega), if_pos hbc] at h2
            exact absurd h2 (by simp)
        · rw [if_neg (by omega), if_pos hab] at h1
          exact absurd h1 (by simp)

theorem strLe_total (a b : String) :
    strLe a b = true ∨ strLe b a = true :=
  chListLe_total a.data b.data

theorem strLe_trans {a b c : String} (h1 : strLe a b = true)
    (h2 : strLe b c = true) : strLe a c = true :=
  chListLe_trans h1 h2

theorem perm_insertLe {α : Type} (le : α → α → Bool) (x : α)
    (l : List α) : (insertLe le x l).Perm (x :: l) := by
  induction l with
  | nil => exact List.Perm.refl _
  | cons y ys ih =>
    unfold insertLe
    split_ifs
    · exact (ih.cons y).trans (List.Perm.swap x y ys)
    · exact List.Perm.refl _

theorem perm_foldl_insertLe {α : Type} (le : α → α → Bool)
    (l acc : List α) :
    (l.foldl (fun acc x => insertLe le x acc) acc).Perm (acc ++ l) := by
  induction l generalizing acc with
  | nil => simp
  | cons x t ih =>
    refine (ih (insertLe le x acc)).trans ?_
    refine (List.Perm.append_right t (perm_insertLe le x acc)).trans ?_
    exact List.perm_middle.symm

theorem perm_sortLe {α : Type} (le : α → α → Bool) (l : List α) :
    (sortLe le l).Perm l :=
  perm_foldl_insertLe le l []

theorem sorted_insertLe {α : Type} (le : α → α → Bool)
    (htot : ∀ a b, le a b = true ∨ le b a = true)
    (htr : ∀ a b c, le a b = true → le b c = true → le a c = true)
    (x : α) {l : List α} (h : l.Pairwise (fun a b => le a b = true)) :
    (insertLe le x l).Pairwise (fun a b => le a b = true) := by
  induction l with
  | nil =>
    unfold insertLe
    simp
  | cons y ys ih =>
    obtain ⟨hy, hys⟩ := List.pairwise_cons.mp h
    unfold insertLe
    split_ifs with hle
    · refine List.pairwise_cons.mpr ⟨?_, ih hys⟩
      intro b hb
      rcases List.mem_cons.mp ((perm_insertLe le x ys).mem_iff.mp hb)
          with rfl | hb
      · exact hle
      · exact hy b hb
    · refine List.pairwise_cons.mpr ⟨?_, h⟩
      intro b hb
      have hxy : le x y = true := (htot x y).resolve_right hle
      rcases List.mem_cons.mp hb with rfl | hb
      · exact hxy
      · exact htr x y b hxy (hy b hb)

theorem sorted_foldl_insertLe {α : Type} (le : α → α → Bool)
    (htot : ∀ a b, le a b = true ∨ le b a = true)
    (htr : ∀ a b c, le a b = true → le b c = true → le a c = true)
    (l : List α) (acc : List α)
    (h : acc.Pairwise (fun a b => le a b = true)) :
    (l.foldl (fun acc x => insertLe le x acc) acc).Pairwise
      (fun a b => le a b = true) := by
  induction l generalizing acc with
  | nil => exact h
  | cons x t ih => exact ih _ (sorted_insertLe le htot htr x h)

theorem sorted_sortLe {α : Type} (le : α → α → Bool)
    (htot : ∀ a b, le a b = true ∨ le b a = true)
    (htr : ∀ a b c, le a b = true → le b c = true → le a c = true)
    (l : List α) :
    (sortLe le l).Pairwise (fun a b => le a b = true) :=
  sorted_foldl_insertLe le htot htr l [] (by simp)

/-- C8: the output stage produces exactly one statistics entry per
assignment group; the groups cover exactly the assignment names of the
records together with the supplied all-seen names (so an all-seen
name with no surviving records still gets its own, empty, group); the
groups are listed in ascending assignment-name order without
duplicates, and each group holds exactly the records of its
assignment, sorted by requester email ascending. -/
theorem create_output_files_spec (records : List ExtensionRecord)
    (allA : Option (List String)) :
    ((create_output_files records allA).1.map (fun i => i.assignment)
      = (create_output_files records allA).2.map Prod.fst) ∧
    ((create_output_files records allA).1.length
      = (create_output_files records allA).2.length) ∧
    ((create_output_files records allA).2.map Prod.fst).Pairwise
      (fun a b => strLe a b = true) ∧
    ((create_output_files records allA).2.map Prod.fst).Nodup ∧
    (∀ k, k ∈ (create_output_files records allA).2.map Prod.fst ↔
      (k ∈ records.map (fun r => r.assignment) ∨ k ∈ allA.getD [])) ∧
    (∀ p ∈ (create_output_files records allA).2,
      p.2.Pairwise (fun a b => strLe a.email b.email = true) ∧
      p.2.Perm (records.filter (fun r => r.assignment == p.1))) := by
  have hfst : (create_output_files records allA).2.map Prod.fst
      = sortStrings (outputKeys records allA) := by
    simp only [create_output_files, List.map_map]
    exact List.map_id _
  have hkeysnd : (outputKeys records allA).Nodup := by
    unfold outputKeys
    exact nodup_foldl_insertNew _ _
      (nodup_foldl_insertNew _ _ (by simp))
  refine ⟨?_, ?_, ?_, ?_, ?_, ?_⟩
  · simp only [create_output_files, List.map_map]
    rfl
  · simp only [create_output_files, List.map_map, List.length_map]
  · rw [hfst]
    exact sorted_sortLe strLe strLe_total
      (fun a b c h1 h2 => strLe_trans h1 h2) _
  · rw [hfst]
    exact ((perm_sortLe strLe _).nodup_iff).mpr hkeysnd
  · intro k
    rw [hfst]
    unfold sortStrings
    rw [(perm_sortLe strLe _).mem_iff]
    unfold outputKeys
    rw [mem_foldl_insertNew]
    unfold firstOccur
    rw [mem_foldl_insertNew]
    simp [or_comm]
  · intro p hp
    simp only [create_output_files] at hp
    obtain ⟨k, hk, rfl⟩ := List.mem_map.mp hp
    constructor
    · exact sorted_sortLe
        (fun (a b : ExtensionRecord) => strLe a.email b.email)
        (fun a b => strLe_total a.email b.email)
        (fun a b c h1 h2 => strLe_trans h1 h2) _
    · exact perm_sortLe _ _

/-- Witness for C8 at a concrete input: one record for assignment
HW2 plus the all-seen name HW1 with no records. -/
theorem create_output_files_spec_witness :
    ((create_output_files
        [⟨"z@example.com", "Zed", "HW2", ⟨2024, 3, 1⟩, 2, none, none⟩]
        (some ["HW1"])).1.map (fun i => i.assignment)
      = (create_output_files
        [⟨"z@example.com", "Zed", "HW2", ⟨2024, 3, 1⟩, 2, none, none⟩]
        (some ["HW1"])).2.map Prod.fst) ∧
    ("HW1" ∈ (create_output_files
        [⟨"z@example.com", "Zed", "HW2", ⟨2024, 3, 1⟩, 2, none, none⟩]
        (some ["HW1"])).2.map Prod.fst ↔
      ("HW1" ∈ ([⟨"z@example.com", "Zed", "HW2", ⟨2024, 3, 1⟩, 2, none,
          none⟩] : List ExtensionRecord).map (fun r => r.assignment) ∨
        "HW1" ∈ (some ["HW1"] : Option (List String)).getD [])) :=
  ⟨(create_output_files_spec
      [⟨"z@example.com", "Zed", "HW2", ⟨2024, 3, 1⟩, 2, none, none⟩]
      (some ["HW1"])).1,
   (create_output_files_spec
      [⟨"z@example.com", "Zed", "HW2", ⟨2024, 3, 1⟩, 2, none, none⟩]
      (some ["HW1"])).2.2.2.2.1 "HW1"⟩

/-- `pathlib` suffix splitting of a file name: the extension starts at
the last dot, provided that dot is neither the first nor the last
character; otherwise there is no extension. -/
def splitSuffix (nm : List Char) : List Char × List Char :=
  match nm.reverse.findIdx? (fun c => c = '.') with
  | none => (nm, [])
  | some j =>
    let i := nm.length - 1 - j
    if 0 < i ∧ i < nm.length - 1 then (nm.take i, nm.drop i)
    else (nm, [])

/-- `Path(p).with_name(f"{stem}_PROCESSED{suffix}")`: insert the fixed
marker between the stem and the extension of the file-name part. -/
def processedPath (p : String) : String :=
  let nm := (p.data.reverse.takeWhile (fun c => c ≠ '/')).reverse
  let dir := p.data.take (p.data.length - nm.length)
  ⟨dir ++ (splitSuffix nm).1 ++ "_PROCESSED".data ++ (splitSuffix nm).2⟩

/-- `write_processed_copy` in its preview semantics: validate the
inputs, require the literal `DONE?` column in the stored column map,
and produce the derived output path.  The row-marking file write is
I/O and outside the embedding. -/
def write_processed_copy (input_path : Option String)
    (table_data : Option TableData) (processed_rows : List Nat) :
    Option String × Option String :=
  match input_path, table_data with
  | some p, some t =>
    if p = "" then (none, some "No input file or parsed table data available")
    else
      match colIdx t.col_map "DONE?" with
      | none => (none, some ("Input file does not include a " ++ sq
          ++ "DONE?" ++ sq ++ " column"))
      | some _ => (some (processedPath p), none)
  | _, _ => (none, some "No input file or parsed table data available")

theorem colIdxAux_eq_none {l : List String} {n : String} {i : Nat}
    (h : colIdxAux l n i = none) : n ∉ l := by
  induction l generalizing i with
  | nil => simp
  | cons a t ih =>
    unfold colIdxAux at h
    intro hmem
    rcases List.mem_cons.mp hmem with rfl | hmem
    · revert h
      split
      · intro h
        exact absurd h (by simp)
      · intro h
        rw [if_pos rfl] at h
        exact absurd h (by simp)
    · revert h
      split
      next heq =>
        intro h
        exact absurd h (by simp)
      next heq =>
        intro h
        exact ih heq hmem

/-- C9: the processed-copy writer looks up the literal header name
`DONE?` in the stored column map; whenever that exact key is absent
it refuses with the fixed error message and no output path, whatever
column-name configuration was used during parsing. -/
theorem write_processed_copy_requires_literal_done (p : String)
    (t : TableData) (processed : List Nat) (hp : p ≠ "")
    (hd : colIdx t.col_map "DONE?" = none) :
    write_processed_copy (some p) (some t) processed =
      (none, some ("Input file does not include a " ++ sq ++ "DONE?"
        ++ sq ++ " column")) ∧
    "DONE?" ∉ t.col_map := by
  constructor
  · unfold write_processed_copy
    dsimp only
    rw [if_neg hp, hd]
  · exact colIdxAux_eq_none hd

/-- Witness for C9: a table parsed with a configuration whose done
column is named `Done` rather than `DONE?` is refused. -/
theorem write_processed_copy_requires_literal_done_witness :
    write_processed_copy (some "input.csv")
      (some ⟨["Email", "Done"], [], ["Email", "Done"], []⟩) [2] =
      (none, some ("Input file does not include a " ++ sq ++ "DONE?"
        ++ sq ++ " column")) ∧
    "DONE?" ∉ (⟨["Email", "Done"], [], ["Email", "Done"], []⟩
      : TableData).col_map :=
  write_processed_copy_requires_literal_done "input.csv"
    ⟨["Email", "Done"], [], ["Email", "Done"], []⟩ [2]
    (by decide) (by decide)

end ProcessExtensions
